import Mathlib

/-!
Shallow embedding of the Azure Updates Hub core logic (src/src/App.tsx)
and verification of its specification.

Modelling conventions:
* JavaScript strings are modelled as lists of code points (`List Nat`);
  `toLowerCase`, `trim` and `includes` are modelled over the ASCII range,
  which covers every string the application manipulates.
* A record's `date` (an ISO-8601 string parsed with `new Date`) is modelled
  as its millisecond timestamp (`Int`); parsing is the identity.  The model
  is timezone-free (local time = UTC), so `getDay`/`setDate`/`setHours`
  arithmetic becomes plain integer arithmetic on milliseconds.
* The week key produced by `start.toISOString()` is an injective encoding of
  the start instant, so it is represented by the start instant itself; the
  UI sentinel string `'all'` is represented by `Option.none`.
* Display labels (`label`, the `en-US` month label) are presentational; the
  month label is injective in (year, month), so it is represented by that
  pair, computed with the standard civil-from-days algorithm.
-/

namespace AzureHub

/-- A JavaScript string, as its sequence of code points. -/
abbrev Str := List Nat

/-- Convenience conversion from a Lean string literal to `Str`. -/
def str (s : String) : Str := s.data.map Char.toNat

/-- JavaScript whitespace test, restricted to the ASCII range
(space and the control characters TAB..CR). -/
def wsChar (c : Nat) : Bool := decide (c = 32 ∨ (9 ≤ c ∧ c ≤ 13))

/-- `String.prototype.toLowerCase` on one code point (ASCII range). -/
def lowerChar (c : Nat) : Nat := if 65 ≤ c ∧ c ≤ 90 then c + 32 else c

/-- `String.prototype.toLowerCase`. -/
def jsToLower (s : Str) : Str := s.map lowerChar

/-- `String.prototype.trim`: drop leading and trailing whitespace. -/
def jsTrim (s : Str) : Str :=
  (((s.dropWhile wsChar).reverse).dropWhile wsChar).reverse

/-- Does `hay` start with `needle`?  (Helper for `jsIncludes`.) -/
def leadMatch : Str → Str → Bool
  | [], _ => true
  | _ :: _, [] => false
  | a :: as, b :: bs => (a == b) && leadMatch as bs

/-- Helper: does `needle` occur in the haystack at some position? -/
def includesFrom (needle : Str) : Str → Bool
  | [] => leadMatch needle []
  | a :: t => leadMatch needle (a :: t) || includesFrom needle t

/-- `String.prototype.includes`: substring occurrence test. -/
def jsIncludes (hay needle : Str) : Bool := includesFrom needle hay

/-- Lexicographic comparison of code-point sequences: the default
`Array.prototype.sort` string comparator, as a ≤-test. -/
def lexLeB : Str → Str → Bool
  | [], _ => true
  | _ :: _, [] => false
  | a :: as, b :: bs => a < b || (a == b && lexLeB as bs)

/-- `UpdateStatus` from src/unnamed/part_001 (lib/types). -/
inductive UpdateStatus where
  | GA | Preview | Deprecated | Retired | New
  deriving DecidableEq, Repr

/-- `AzureUpdate` from src/unnamed/part_001 (lib/types): `domain` is the
list of category tags, `date` the millisecond timestamp of the ISO date. -/
structure AzureUpdate where
  id : Str
  title : Str
  description : Str
  domain : List Str
  status : UpdateStatus
  date : Int
  link : Option Str := none
  deriving DecidableEq, Repr

/-- Milliseconds per day. -/
def msPerDay : Int := 86400000

/-- Day number (days since the epoch, floored) of a timestamp. -/
def dayNumber (t : Int) : Int := t / msPerDay

/-- `Date.prototype.getDay`: 0 = Sunday .. 6 = Saturday.
The epoch day (1970-01-01) was a Thursday, day-of-week 4. -/
def dayOfWeek (t : Int) : Int := (dayNumber t + 4) % 7

/-- `setHours(0,0,0,0)`: midnight at the start of the timestamp's day. -/
def startOfDay (t : Int) : Int := dayNumber t * msPerDay

/-- The `{start, end}` pair returned by `getWeekRange` (App.tsx:70-85);
the source's `end` field is called `endTime` (`end` is reserved in Lean),
and the presentational `label` string is omitted. -/
structure WeekRange where
  start : Int
  endTime : Int
  deriving DecidableEq, Repr

/-- `getWeekRange` (App.tsx:70-85): the Sunday-aligned week containing the
date; `start` is Sunday 00:00:00.000, `end` Saturday 23:59:59.999. -/
def getWeekRange (t : Int) : WeekRange :=
  { start := startOfDay t - dayOfWeek t * msPerDay
  , endTime := startOfDay t - dayOfWeek t * msPerDay + 7 * msPerDay - 1 }

/-- `Set.prototype.add` over an insertion-ordered list: first-seen dedup. -/
def addUnique [DecidableEq α] (acc : List α) (a : α) : List α :=
  if a ∈ acc then acc else acc ++ [a]

/-- First-seen deduplication of a list (a JS `Set` built by iteration,
read back in insertion order). -/
def firstSeenDedup [DecidableEq α] (l : List α) : List α :=
  l.foldl addUnique []

/-- The comparator used to sort category tags: lexicographic ascending
(the default string comparator of `Array.prototype.sort`). -/
def domLe (a b : Str) : Prop := lexLeB a b = true

instance : DecidableRel domLe := fun a b =>
  inferInstanceAs (Decidable (lexLeB a b = true))

/-- `allDomains` (App.tsx:95-101): union of every record's category tags,
first-seen deduplicated by the `Set`, then sorted ascending. -/
def allDomains (updates : List AzureUpdate) : List Str :=
  List.insertionSort domLe (firstSeenDedup (updates.flatMap (·.domain)))

/-- `Map.prototype.set` guarded by `has` (App.tsx:111-113): keep the first
week seen for each window-start key. -/
def addWeek (acc : List WeekRange) (w : WeekRange) : List WeekRange :=
  if acc.any (fun x => x.start == w.start) then acc else acc ++ [w]

/-- One iteration of the `forEach` loop of App.tsx:106-114. -/
def weekStep (acc : List WeekRange) (u : AzureUpdate) : List WeekRange :=
  addWeek acc (getWeekRange u.date)

/-- The contents of the `weeks` map (App.tsx:104-114), in insertion order. -/
def weekList (updates : List AzureUpdate) : List WeekRange :=
  updates.foldl weekStep []

/-- The descending-by-start comparator of App.tsx:117. -/
def weekGe (a b : WeekRange) : Prop := b.start ≤ a.start

instance : DecidableRel weekGe := fun a b =>
  inferInstanceAs (Decidable (b.start ≤ a.start))

instance : IsTotal WeekRange weekGe := ⟨fun a b => le_total b.start a.start⟩

instance : IsTrans WeekRange weekGe :=
  ⟨fun _ _ _ h1 h2 => le_trans h2 h1⟩

/-- `availableWeeks` (App.tsx:103-119): dedup by window start, then sort
descending by start instant.  The ISO-string key of each entry injectively
encodes its `start`, so the key is represented by `start` itself. -/
def availableWeeks (updates : List AzureUpdate) : List WeekRange :=
  List.insertionSort weekGe (weekList updates)

/-- `matchesSearch` (App.tsx:123-125). -/
def matchesSearch (q : Str) (u : AzureUpdate) : Bool :=
  decide (jsTrim q = []) ||
    jsIncludes (jsToLower u.title) (jsToLower q) ||
    jsIncludes (jsToLower u.description) (jsToLower q)

/-- `matchesDomain` (App.tsx:127): no category selected, or the selected
category occurs in the record's tags. -/
def matchesDomain (d : Option Str) (u : AzureUpdate) : Bool :=
  match d with
  | none => true
  | some c => decide (c ∈ u.domain)

/-- `matchesWeek` (App.tsx:129-136): `none` models the `'all'` sentinel;
an unknown key leaves the default `true` in place. -/
def matchesWeek (weeks : List WeekRange) (sel : Option Int) (t : Int) : Bool :=
  match sel with
  | none => true
  | some k =>
    match weeks.find? (fun w => w.start == k) with
    | none => true
    | some w => decide (w.start ≤ t) && decide (t ≤ w.endTime)

/-- `filteredUpdates` (App.tsx:121-140): conjunctive filter over search
text, selected category and selected week. -/
def filteredUpdates (updates : List AzureUpdate) (searchQuery : Str)
    (selectedDomain : Option Str) (selectedWeek : Option Int) :
    List AzureUpdate :=
  updates.filter (fun u =>
    matchesSearch searchQuery u &&
    matchesDomain selectedDomain u &&
    matchesWeek (availableWeeks updates) selectedWeek u.date)

/-- Civil date (year, month) from a day number — the standard
days-to-civil algorithm; models the year/month parts rendered by
`toLocaleDateString('en-US', {year:'numeric', month:'long'})`, whose label
is injective in this pair. -/
def civilYearMonth (z0 : Int) : Int × Int :=
  let z := z0 + 719468
  let era := z / 146097
  let doe := z - era * 146097
  let yoe := (doe - doe / 1460 + doe / 36524 - doe / 146096) / 365
  let y := yoe + era * 400
  let doy := doe - (365 * yoe + yoe / 4 - yoe / 100)
  let mp := (5 * doy + 2) / 153
  let m := mp + (if mp < 10 then 3 else -9)
  (if m ≤ 2 then y + 1 else y, m)

/-- The month key of a record (App.tsx:146): calendar year and month of
the record's date. -/
def monthKey (u : AzureUpdate) : Int × Int := civilYearMonth (dayNumber u.date)

/-- One step of the grouping loop (App.tsx:144-149): append the record to
its month group, creating the group at the end on first sight. -/
def insertGrouped (k : Int × Int) (u : AzureUpdate) :
    List ((Int × Int) × List AzureUpdate) → List ((Int × Int) × List AzureUpdate)
  | [] => [(k, [u])]
  | (k', g) :: rest =>
    if k = k' then (k', g ++ [u]) :: rest else (k', g) :: insertGrouped k u rest

/-- One iteration of the `forEach` loop of App.tsx:144-149. -/
def groupStep (acc : List ((Int × Int) × List AzureUpdate)) (u : AzureUpdate) :
    List ((Int × Int) × List AzureUpdate) :=
  insertGrouped (monthKey u) u acc

/-- `groupedByMonth` (App.tsx:142-151): plain-object groups; string keys
of this shape enumerate in insertion (first-seen) order. -/
def groupByMonth (records : List AzureUpdate) :
    List ((Int × Int) × List AzureUpdate) :=
  records.foldl groupStep []

/-- Reading one month group back out of the grouped structure
(`groups[monthKey]`): the group stored under key `k`, empty if absent. -/
def monthGroup (k : Int × Int) :
    List ((Int × Int) × List AzureUpdate) → List AzureUpdate
  | [] => []
  | (k', g) :: rest => if k' = k then g else monthGroup k rest

/-- The filter-relevant UI state of `App` (App.tsx:89-91):
`selectedWeek = none` models the `'all'` sentinel. -/
structure FilterState where
  searchQuery : Str
  selectedDomain : Option Str
  selectedWeek : Option Int
  deriving DecidableEq, Repr

/-- `setSearchQuery` state setter. -/
def setSearchQuery (q : Str) (s : FilterState) : FilterState :=
  { s with searchQuery := q }

/-- `setSelectedDomain` state setter. -/
def setSelectedDomain (d : Option Str) (s : FilterState) : FilterState :=
  { s with selectedDomain := d }

/-- `setSelectedWeek` state setter. -/
def setSelectedWeek (w : Option Int) (s : FilterState) : FilterState :=
  { s with selectedWeek := w }

/-- `handleClearFilters` (App.tsx:153-157): the three setters run inside
one event handler, whose net effect on the state is their composition. -/
def handleClearFilters (s : FilterState) : FilterState :=
  setSelectedWeek none (setSelectedDomain none (setSearchQuery [] s))

/-- The default criteria: empty search, no category, week `'all'`. -/
def defaultCriteria : FilterState :=
  { searchQuery := [], selectedDomain := none, selectedWeek := none }

/-- `hasActiveFilters` (App.tsx:159). -/
def hasActiveFilters (s : FilterState) : Bool :=
  decide (jsTrim s.searchQuery ≠ []) || s.selectedDomain.isSome ||
    decide (s.selectedWeek ≠ none)

/-- The filter-count badge (App.tsx:245): JS truthiness of the raw
(untrimmed) search string, presence of a category, week ≠ `'all'`. -/
def activeFilterCount (s : FilterState) : Nat :=
  (if s.searchQuery = [] then 0 else 1) +
    (if s.selectedDomain.isSome then 1 else 0) +
    (if s.selectedWeek = none then 0 else 1)

/-- The whole derivation pipeline recomputed on a render (App.tsx:95-151). -/
def recompute (updates : List AzureUpdate) (s : FilterState) :
    List Str × List WeekRange × List AzureUpdate ×
      List ((Int × Int) × List AzureUpdate) :=
  ( allDomains updates
  , availableWeeks updates
  , filteredUpdates updates s.searchQuery s.selectedDomain s.selectedWeek
  , groupByMonth
      (filteredUpdates updates s.searchQuery s.selectedDomain s.selectedWeek) )

/-- Modelled from the spec (§4.2 predicate 1, verbatim): the search
predicate as the spec words it — `searchText` is EMPTY (not: trims to
empty), or occurs case-insensitively in the title or the description. -/
def specSearchPred (q : Str) (u : AzureUpdate) : Prop :=
  q = [] ∨ jsIncludes (jsToLower u.title) (jsToLower q) = true ∨
    jsIncludes (jsToLower u.description) (jsToLower q) = true

instance (q : Str) (u : AzureUpdate) : Decidable (specSearchPred q u) :=
  inferInstanceAs (Decidable (_ ∨ _ ∨ _))

/-- §4.2 predicate 1 amended to match the code: the search text trims to
empty, or occurs case-insensitively in the title or the description. -/
def searchPred (q : Str) (u : AzureUpdate) : Prop :=
  jsTrim q = [] ∨ jsIncludes (jsToLower u.title) (jsToLower q) = true ∨
    jsIncludes (jsToLower u.description) (jsToLower q) = true

/-- §4.2 predicate 2: no category selected, or the selected category is
among the record's tags. -/
def domainPred (d : Option Str) (u : AzureUpdate) : Prop :=
  ∀ c, d = some c → c ∈ u.domain

/-- §4.2 predicate 3 (for criteria satisfying the §3 invariant): week is
`'all'`, or the record's date lies in the referenced bucket's inclusive
range. -/
def weekPred (weeks : List WeekRange) (sel : Option Int) (t : Int) : Prop :=
  ∀ k, sel = some k →
    ∃ b ∈ weeks, b.start = k ∧ b.start ≤ t ∧ t ≤ b.endTime

/-- Sample record (concrete inputs for witnesses): dated 2024-03-05, a
Tuesday, day 19787 since the epoch. -/
def uA : AzureUpdate :=
  { id := str "1", title := str "Compute", description := str "VMs"
  , domain := [str "Compute"], status := UpdateStatus.GA
  , date := 19787 * 86400000, link := none }

/-- Sample record: dated 2024-03-12, day 19794 since the epoch. -/
def uB : AzureUpdate :=
  { id := str "2", title := str "CosmosDB", description := str "Databases"
  , domain := [str "Databases"], status := UpdateStatus.Preview
  , date := 19794 * 86400000, link := none }

/-! ### Helper lemmas: strings -/

theorem lexLeB_total (a b : Str) : lexLeB a b = true ∨ lexLeB b a = true := by
  induction a generalizing b with
  | nil => left; rfl
  | cons x xs ih =>
    cases b with
    | nil => right; rfl
    | cons y ys =>
      rcases Nat.lt_trichotomy x y with h | h | h
      · left; simp [lexLeB, h]
      · subst h
        rcases ih ys with h' | h'
        · left; simp [lexLeB, h']
        · right; simp [lexLeB, h']
      · right; simp [lexLeB, h]

theorem lexLeB_trans (a b c : Str) (h1 : lexLeB a b = true)
    (h2 : lexLeB b c = true) : lexLeB a c = true := by
  induction a generalizing b c with
  | nil => rfl
  | cons x xs ih =>
    cases b with
    | nil => simp [lexLeB] at h1
    | cons y ys =>
      cases c with
      | nil => simp [lexLeB] at h2
      | cons z zs =>
        simp only [lexLeB, Bool.or_eq_true, Bool.and_eq_true,
          decide_eq_true_eq, beq_iff_eq] at h1 h2 ⊢
        rcases h1 with h1 | ⟨rfl, h1⟩
        · rcases h2 with h2 | ⟨rfl, h2⟩
          · exact Or.inl (Nat.lt_trans h1 h2)
          · exact Or.inl h1
        · rcases h2 with h2 | ⟨rfl, h2⟩
          · exact Or.inl h2
          · exact Or.inr ⟨rfl, ih ys zs h1 h2⟩

theorem wsChar_lowerChar (c : Nat) : wsChar (lowerChar c) = wsChar c := by
  unfold wsChar lowerChar
  split
  · rename_i h
    rw [decide_eq_decide]
    omega
  · rfl

theorem dropWhile_ws_forall (q : Str) :
    (∀ c ∈ q.dropWhile wsChar, wsChar c = true) ↔ (∀ c ∈ q, wsChar c = true) := by
  induction q with
  | nil => simp
  | cons a t ih =>
    by_cases h : wsChar a = true
    · simp [List.dropWhile_cons, h, ih]
    · simp [List.dropWhile_cons, h]

theorem jsTrim_eq_nil_iff (q : Str) :
    jsTrim q = [] ↔ ∀ c ∈ q, wsChar c = true := by
  rw [jsTrim, List.reverse_eq_nil_iff, List.dropWhile_eq_nil_iff]
  constructor
  · intro h
    rw [← dropWhile_ws_forall]
    intro c hc
    exact h c (List.mem_reverse.2 hc)
  · intro h c hc
    exact (dropWhile_ws_forall q).2 h c (List.mem_reverse.1 hc)

theorem allWs_congr_of_lower_eq (q1 q2 : Str) (h : jsToLower q1 = jsToLower q2) :
    (∀ c ∈ q1, wsChar c = true) ↔ (∀ c ∈ q2, wsChar c = true) := by
  induction q1 generalizing q2 with
  | nil =>
    cases q2 with
    | nil => simp
    | cons b s => simp [jsToLower] at h
  | cons a t ih =>
    cases q2 with
    | nil => simp [jsToLower] at h
    | cons b s =>
      simp only [jsToLower, List.map_cons, List.cons.injEq] at h
      obtain ⟨hab, hts⟩ := h
      have h1 : wsChar a = wsChar b := by
        rw [← wsChar_lowerChar a, ← wsChar_lowerChar b, hab]
      rw [List.forall_mem_cons, List.forall_mem_cons, h1,
        ih s (by simpa [jsToLower] using hts)]

theorem jsTrim_nil_congr (q1 q2 : Str) (h : jsToLower q1 = jsToLower q2) :
    (jsTrim q1 = [] ↔ jsTrim q2 = []) := by
  rw [jsTrim_eq_nil_iff, jsTrim_eq_nil_iff, allWs_congr_of_lower_eq q1 q2 h]

/-! ### Helper lemmas: first-seen deduplication -/

theorem addUnique_nodup [DecidableEq α] {acc : List α} (h : acc.Nodup) (a : α) :
    (addUnique acc a).Nodup := by
  unfold addUnique
  split
  · exact h
  · rename_i hmem
    simp [List.nodup_append, h, hmem]

theorem foldl_addUnique_nodup [DecidableEq α] (l : List α) (acc : List α)
    (h : acc.Nodup) : (l.foldl addUnique acc).Nodup := by
  induction l generalizing acc with
  | nil => exact h
  | cons a t ih => exact ih _ (addUnique_nodup h a)

theorem mem_foldl_addUnique [DecidableEq α] (l : List α) (acc : List α) (x : α) :
    x ∈ l.foldl addUnique acc ↔ x ∈ acc ∨ x ∈ l := by
  induction l generalizing acc with
  | nil => simp
  | cons a t ih =>
    simp only [List.foldl_cons, ih, List.mem_cons]
    unfold addUnique
    split
    · rename_i hm
      constructor
      · rintro (h | h)
        · exact Or.inl h
        · exact Or.inr (Or.inr h)
      · rintro (h | h | h)
        · exact Or.inl h
        · subst h; exact Or.inl hm
        · exact Or.inr h
    · simp only [List.mem_append, List.mem_singleton]
      constructor
      · rintro ((h | h) | h)
        · exact Or.inl h
        · exact Or.inr (Or.inl h)
        · exact Or.inr (Or.inr h)
      · rintro (h | h | h)
        · exact Or.inl (Or.inl h)
        · exact Or.inl (Or.inr h)
        · exact Or.inr h

theorem firstSeenDedup_nodup [DecidableEq α] (l : List α) :
    (firstSeenDedup l).Nodup :=
  foldl_addUnique_nodup l [] List.nodup_nil

theorem mem_firstSeenDedup [DecidableEq α] (l : List α) (x : α) :
    x ∈ firstSeenDedup l ↔ x ∈ l := by
  rw [firstSeenDedup, mem_foldl_addUnique]
  simp

/-! ### Helper lemmas: week buckets -/

theorem getWeekRange_start_mod (t : Int) :
    (getWeekRange t).start % (7 * msPerDay) = 3 * msPerDay := by
  simp only [getWeekRange, startOfDay, dayNumber, dayOfWeek, msPerDay]
  omega

theorem getWeekRange_dayAligned (t : Int) :
    (getWeekRange t).start % msPerDay = 0 := by
  simp only [getWeekRange, startOfDay, dayNumber, dayOfWeek, msPerDay]
  omega

theorem getWeekRange_dow (t : Int) : dayOfWeek (getWeekRange t).start = 0 := by
  simp only [getWeekRange, startOfDay, dayNumber, dayOfWeek, msPerDay]
  omega

theorem getWeekRange_endTime (t : Int) :
    (getWeekRange t).endTime = (getWeekRange t).start + 7 * msPerDay - 1 := rfl

theorem self_mem_getWeekRange (t : Int) :
    (getWeekRange t).start ≤ t ∧ t ≤ (getWeekRange t).endTime := by
  simp only [getWeekRange, startOfDay, dayNumber, dayOfWeek, msPerDay]
  omega

theorem getWeekRange_eq_of_start_eq (t1 t2 : Int)
    (h : (getWeekRange t1).start = (getWeekRange t2).start) :
    getWeekRange t1 = getWeekRange t2 := by
  simp only [getWeekRange, WeekRange.mk.injEq] at h ⊢
  omega

theorem mem_addWeek_of_mem {acc : List WeekRange} {x : WeekRange}
    (h : x ∈ acc) (w : WeekRange) : x ∈ addWeek acc w := by
  unfold addWeek
  split
  · exact h
  · exact List.mem_append.2 (Or.inl h)

theorem mem_weekFold_of_mem (l : List AzureUpdate) (acc : List WeekRange)
    (w : WeekRange) (h : w ∈ acc) : w ∈ l.foldl weekStep acc := by
  induction l generalizing acc with
  | nil => exact h
  | cons a t ih =>
    rw [List.foldl_cons]
    exact ih _ (mem_addWeek_of_mem h _)

theorem mem_weekFold_shape (l : List AzureUpdate) (acc : List WeekRange)
    (w : WeekRange) (h : w ∈ l.foldl weekStep acc) :
    w ∈ acc ∨ ∃ u ∈ l, w = getWeekRange u.date := by
  induction l generalizing acc with
  | nil => exact Or.inl h
  | cons a t ih =>
    rw [List.foldl_cons] at h
    rcases ih _ h with h' | ⟨u, hu, hw⟩
    · unfold weekStep addWeek at h'
      split at h'
      · exact Or.inl h'
      · rcases List.mem_append.1 h' with h'' | h''
        · exact Or.inl h''
        · exact Or.inr ⟨a, List.mem_cons_self a t, List.mem_singleton.1 h''⟩
    · exact Or.inr ⟨u, List.mem_cons_of_mem a hu, hw⟩

theorem weekFold_pairwise_ne (l : List AzureUpdate) (acc : List WeekRange)
    (h : acc.Pairwise (fun a b => a.start ≠ b.start)) :
    (l.foldl weekStep acc).Pairwise (fun a b => a.start ≠ b.start) := by
  induction l generalizing acc with
  | nil => exact h
  | cons a t ih =>
    rw [List.foldl_cons]
    apply ih
    unfold weekStep addWeek
    split
    · exact h
    · rename_i hany
      rw [List.pairwise_append]
      refine ⟨h, List.pairwise_singleton _ _, ?_⟩
      intro x hx b hb
      rw [List.mem_singleton] at hb
      subst hb
      intro heq
      exact hany (List.any_eq_true.2 ⟨x, hx, by simp [heq]⟩)

theorem weekFold_cover (l : List AzureUpdate) (acc : List WeekRange) :
    ∀ u ∈ l, ∃ w ∈ l.foldl weekStep acc,
      w.start = (getWeekRange u.date).start := by
  induction l generalizing acc with
  | nil => intro u hu; exact absurd hu (List.not_mem_nil u)
  | cons a t ih =>
    intro u hu
    rcases List.mem_cons.1 hu with rfl | hu'
    · rw [List.foldl_cons]
      by_cases hany : (acc.any fun x => x.start == (getWeekRange u.date).start) = true
      · rcases List.any_eq_true.1 hany with ⟨x, hx, hxeq⟩
        refine ⟨x, ?_, by simpa using hxeq⟩
        exact mem_weekFold_of_mem t _ x (mem_addWeek_of_mem hx _)
      · refine ⟨getWeekRange u.date, ?_, rfl⟩
        apply mem_weekFold_of_mem
        unfold weekStep addWeek
        rw [if_neg hany]
        exact List.mem_append.2 (Or.inr (List.mem_singleton.2 rfl))
    · rw [List.foldl_cons]
      exact ih _ u hu'

theorem availableWeeks_perm (updates : List AzureUpdate) :
    (availableWeeks updates).Perm (weekList updates) :=
  List.perm_insertionSort weekGe (weekList updates)

theorem mem_availableWeeks_shape (updates : List AzureUpdate) (w : WeekRange)
    (h : w ∈ availableWeeks updates) : ∃ u ∈ updates, w = getWeekRange u.date := by
  have h' := (availableWeeks_perm updates).mem_iff.1 h
  rcases mem_weekFold_shape updates [] w h' with h'' | h''
  · exact absurd h'' (List.not_mem_nil w)
  · exact h''

theorem availableWeeks_pairwise_ne (updates : List AzureUpdate) :
    (availableWeeks updates).Pairwise (fun a b => a.start ≠ b.start) := by
  have hsym : ∀ {x y : WeekRange}, x.start ≠ y.start → y.start ≠ x.start :=
    fun h => h.symm
  exact ((availableWeeks_perm updates).pairwise_iff hsym).2
    (weekFold_pairwise_ne updates [] List.Pairwise.nil)

theorem availableWeeks_sorted (updates : List AzureUpdate) :
    (availableWeeks updates).Pairwise weekGe := by
  haveI : IsTotal WeekRange weekGe := ⟨fun a b => le_total b.start a.start⟩
  haveI : IsTrans WeekRange weekGe := ⟨fun _ _ _ h1 h2 => le_trans h2 h1⟩
  exact List.sorted_insertionSort weekGe (weekList updates)

theorem availableWeeks_cover (updates : List AzureUpdate) :
    ∀ u ∈ updates, ∃ w ∈ availableWeeks updates,
      w.start = (getWeekRange u.date).start := by
  intro u hu
  rcases weekFold_cover updates [] u hu with ⟨w, hw, heq⟩
  exact ⟨w, (availableWeeks_perm updates).mem_iff.2 hw, heq⟩

theorem availableWeeks_start_inj (updates : List AzureUpdate)
    {b b' : WeekRange} (hb : b ∈ availableWeeks updates)
    (hb' : b' ∈ availableWeeks updates) (h : b.start = b'.start) : b = b' := by
  by_cases hbb : b = b'
  · exact hbb
  · have hsym : Symmetric (fun a c : WeekRange => a.start ≠ c.start) :=
      fun _ _ h => h.symm
    exact absurd h
      ((availableWeeks_pairwise_ne updates).forall hsym hb hb' hbb)

/-! ### Helper lemmas: grouping by month -/

theorem insertGrouped_keys (k : Int × Int) (u : AzureUpdate)
    (acc : List ((Int × Int) × List AzureUpdate)) :
    (insertGrouped k u acc).map Prod.fst = addUnique (acc.map Prod.fst) k := by
  induction acc with
  | nil => simp [insertGrouped, addUnique]
  | cons p rest ih =>
    obtain ⟨k', g⟩ := p
    unfold insertGrouped
    by_cases hk : k = k'
    · subst hk
      simp [addUnique]
    · rw [if_neg hk]
      simp only [List.map_cons, ih]
      unfold addUnique
      by_cases hmem : k ∈ rest.map Prod.fst
      · rw [if_pos hmem, if_pos]
        simp [hmem]
      · rw [if_neg hmem, if_neg]
        · simp
        · simp only [List.map_cons, List.mem_cons]
          rintro (h | h)
          · exact hk h
          · exact hmem h

theorem insertGrouped_sizes (k : Int × Int) (u : AzureUpdate)
    (acc : List ((Int × Int) × List AzureUpdate)) :
    ((insertGrouped k u acc).map (fun p => p.2.length)).sum =
      (acc.map (fun p => p.2.length)).sum + 1 := by
  induction acc with
  | nil => simp [insertGrouped]
  | cons p rest ih =>
    obtain ⟨k', g⟩ := p
    unfold insertGrouped
    by_cases hk : k = k'
    · subst hk
      simp
      omega
    · rw [if_neg hk]
      simp only [List.map_cons, List.sum_cons, ih]
      omega

theorem monthGroup_insertGrouped (k k' : Int × Int) (u : AzureUpdate)
    (acc : List ((Int × Int) × List AzureUpdate)) :
    monthGroup k (insertGrouped k' u acc) =
      monthGroup k acc ++ (if k' = k then [u] else []) := by
  induction acc with
  | nil =>
    by_cases h : k' = k
    · simp [insertGrouped, monthGroup, h]
    · simp [insertGrouped, monthGroup, h]
  | cons p rest ih =>
    obtain ⟨k0, g0⟩ := p
    by_cases hk : k' = k0
    · subst hk
      rw [insertGrouped, if_pos rfl]
      by_cases h0 : k' = k
      · simp [monthGroup, h0]
      · simp [monthGroup, h0]
    · rw [insertGrouped, if_neg hk]
      by_cases h0 : k0 = k
      · have hne : ¬ (k' = k) := fun he => hk (he.trans h0.symm)
        simp [monthGroup, h0, hne]
      · simp only [monthGroup, if_neg h0]
        exact ih

theorem groupFold_keys (l : List AzureUpdate)
    (acc : List ((Int × Int) × List AzureUpdate)) :
    (l.foldl groupStep acc).map Prod.fst =
      (l.map monthKey).foldl addUnique (acc.map Prod.fst) := by
  induction l generalizing acc with
  | nil => rfl
  | cons a t ih =>
    rw [List.foldl_cons, List.map_cons, List.foldl_cons, ih]
    unfold groupStep
    rw [insertGrouped_keys]

theorem groupFold_sizes (l : List AzureUpdate)
    (acc : List ((Int × Int) × List AzureUpdate)) :
    ((l.foldl groupStep acc).map (fun p => p.2.length)).sum =
      (acc.map (fun p => p.2.length)).sum + l.length := by
  induction l generalizing acc with
  | nil => simp
  | cons a t ih =>
    rw [List.foldl_cons, ih]
    unfold groupStep
    rw [insertGrouped_sizes]
    simp
    omega

theorem groupFold_contents (l : List AzureUpdate)
    (acc : List ((Int × Int) × List AzureUpdate)) (k : Int × Int) :
    monthGroup k (l.foldl groupStep acc) =
      monthGroup k acc ++ l.filter (fun u => decide (monthKey u = k)) := by
  induction l generalizing acc with
  | nil => simp
  | cons a t ih =>
    rw [List.foldl_cons, ih]
    unfold groupStep
    rw [monthGroup_insertGrouped]
    rw [List.filter_cons]
    by_cases h : monthKey a = k
    · simp [h]
    · simp [h]

theorem monthGroup_of_mem {gs : List ((Int × Int) × List AzureUpdate)}
    {k : Int × Int} {g : List AzureUpdate}
    (hnd : (gs.map Prod.fst).Nodup) (hmem : (k, g) ∈ gs) :
    monthGroup k gs = g := by
  induction gs with
  | nil => exact absurd hmem (List.not_mem_nil _)
  | cons p rest ih =>
    obtain ⟨k0, g0⟩ := p
    simp only [List.map_cons, List.nodup_cons] at hnd
    rcases List.mem_cons.1 hmem with h | h
    · rw [Prod.mk.injEq] at h
      obtain ⟨h1, h2⟩ := h
      rw [monthGroup, if_pos h1.symm]
      exact h2.symm
    · have hk : k0 ≠ k := by
        intro he
        subst he
        exact hnd.1 (List.mem_map.2 ⟨(k0, g), h, rfl⟩)
      rw [monthGroup, if_neg hk]
      exact ih hnd.2 h

theorem groupByMonth_keys (records : List AzureUpdate) :
    (groupByMonth records).map Prod.fst =
      firstSeenDedup (records.map monthKey) := by
  unfold groupByMonth firstSeenDedup
  rw [groupFold_keys]
  rfl

theorem groupByMonth_keys_nodup (records : List AzureUpdate) :
    ((groupByMonth records).map Prod.fst).Nodup := by
  rw [groupByMonth_keys]
  exact firstSeenDedup_nodup _

theorem groupByMonth_group_eq (records : List AzureUpdate) (k : Int × Int)
    (g : List AzureUpdate) (hmem : (k, g) ∈ groupByMonth records) :
    g = records.filter (fun u => decide (monthKey u = k)) := by
  have h1 : monthGroup k (groupByMonth records) = g :=
    monthGroup_of_mem (groupByMonth_keys_nodup records) hmem
  have h2 := groupFold_contents records [] k
  unfold groupByMonth at h1
  rw [h1] at h2
  simpa [monthGroup] using h2

theorem groupByMonth_sizes (records : List AzureUpdate) :
    ((groupByMonth records).map (fun p => p.2.length)).sum = records.length := by
  unfold groupByMonth
  rw [groupFold_sizes]
  simp

/-! ### Helper lemmas: the filter engine -/

theorem matchesSearch_true_iff (q : Str) (u : AzureUpdate) :
    matchesSearch q u = true ↔ searchPred q u := by
  simp [matchesSearch, searchPred, or_assoc]

theorem matchesDomain_true_iff (d : Option Str) (u : AzureUpdate) :
    matchesDomain d u = true ↔ domainPred d u := by
  cases d with
  | none => simp [matchesDomain, domainPred]
  | some c =>
    simp only [matchesDomain, decide_eq_true_eq, domainPred]
    constructor
    · intro h c' he
      rw [Option.some.injEq] at he
      exact he ▸ h
    · intro h
      exact h c rfl

theorem matchesWeek_true_iff (updates : List AzureUpdate) (sel : Option Int)
    (t : Int)
    (hval : sel = none ∨ ∃ b ∈ availableWeeks updates, sel = some b.start) :
    matchesWeek (availableWeeks updates) sel t = true ↔
      weekPred (availableWeeks updates) sel t := by
  cases sel with
  | none => simp [matchesWeek, weekPred]
  | some k =>
    have hex : ∃ b ∈ availableWeeks updates, b.start = k := by
      rcases hval with h | ⟨b, hb, hbk⟩
      · exact absurd h (Option.some_ne_none k)
      · rw [Option.some.injEq] at hbk
        exact ⟨b, hb, hbk.symm⟩
    obtain ⟨b0, hb0, hb0k⟩ := hex
    cases hfind : (availableWeeks updates).find? (fun w => w.start == k) with
    | none =>
      exact absurd (by simpa using hb0k)
        (List.find?_eq_none.1 hfind b0 hb0)
    | some w =>
      have hw_mem := List.mem_of_find?_eq_some hfind
      have hw_k : w.start = k := by simpa using List.find?_some hfind
      simp only [matchesWeek, hfind, Bool.and_eq_true, decide_eq_true_eq,
        weekPred]
      constructor
      · intro hr k' he
        rw [Option.some.injEq] at he
        subst he
        exact ⟨w, hw_mem, hw_k, hr⟩
      · intro h
        obtain ⟨b, hb, hbk, hr⟩ := h k rfl
        have : b = w := availableWeeks_start_inj updates hb hw_mem
          (hbk.trans hw_k.symm)
        exact this ▸ hr

/-! ### Claim theorems -/

/-- C6: filtering with the default criteria (empty search text, no
category, week `'all'`) is the identity on the record collection, element
for element and in order. -/
theorem filter_default_identity (R : List AzureUpdate) :
    filteredUpdates R [] none none = R := by
  rw [filteredUpdates, List.filter_eq_self]
  intro u hu
  simp [matchesSearch, matchesDomain, matchesWeek, jsTrim]

/-- Witness for C6 at a concrete collection. -/
theorem filter_default_identity_witness :
    filteredUpdates [uA] [] none none = [uA] :=
  filter_default_identity [uA]

/-- C10: an unknown week key — one that is neither `'all'` nor the key of
any bucket derived from the collection — is silently ignored: the filter
behaves exactly as if no week constraint were active. -/
theorem unknown_week_key_ignored (R : List AzureUpdate) (q : Str)
    (d : Option Str) (k : Int)
    (hk : ∀ b ∈ availableWeeks R, b.start ≠ k) :
    filteredUpdates R q d (some k) = filteredUpdates R q d none := by
  unfold filteredUpdates
  apply List.filter_congr
  intro u hu
  have hfind : (availableWeeks R).find? (fun w => w.start == k) = none :=
    List.find?_eq_none.2 (fun x hx => by simpa using hk x hx)
  simp [matchesWeek, hfind]

/-- Witness for C10: key 999 names no bucket of `[uA]`. -/
theorem unknown_week_key_ignored_witness :
    filteredUpdates [uA] (str "") none (some 999) =
      filteredUpdates [uA] (str "") none none :=
  unknown_week_key_ignored [uA] (str "") none 999 (by decide)

/-- C9: whitespace-only search text (non-empty but trimming to empty)
imposes no constraint: with the other criteria at their defaults the
filter is the identity, and `hasActiveFilters` reports no active filter. -/
theorem whitespace_search_no_constraint (R : List AzureUpdate) (q : Str)
    (_hne : q ≠ []) (hws : ∀ c ∈ q, wsChar c = true) :
    filteredUpdates R q none none = R ∧
      hasActiveFilters { searchQuery := q, selectedDomain := none,
                         selectedWeek := none } = false := by
  have htrim : jsTrim q = [] := (jsTrim_eq_nil_iff q).2 hws
  constructor
  · rw [filteredUpdates, List.filter_eq_self]
    intro u hu
    simp [matchesSearch, matchesDomain, matchesWeek, htrim]
  · simp [hasActiveFilters, htrim]

/-- Witness for C9 at the single-space search string. -/
theorem whitespace_search_no_constraint_witness :
    filteredUpdates [uA] [32] none none = [uA] ∧
      hasActiveFilters { searchQuery := [32], selectedDomain := none,
                         selectedWeek := none } = false :=
  whitespace_search_no_constraint [uA] [32] (by decide) (by decide)

/-- C5: `handleClearFilters` — the composition of the three setter calls
of the handler — equals the single atomic reset to the default criteria,
so it is observable as one state transition; afterwards the criteria equal
`{searchText := "", category := absent, weekKey := "all"}` and the active
filter count is 0 (and the active-filter flag is off). -/
theorem clearFilters_spec (s : FilterState) :
    handleClearFilters s = defaultCriteria ∧
      activeFilterCount (handleClearFilters s) = 0 ∧
      hasActiveFilters (handleClearFilters s) = false := by
  refine ⟨rfl, ?_, ?_⟩
  · simp [handleClearFilters, setSearchQuery, setSelectedDomain,
      setSelectedWeek, activeFilterCount]
  · simp [handleClearFilters, setSearchQuery, setSelectedDomain,
      setSelectedWeek, hasActiveFilters, jsTrim]

/-- C8: the derivation/filter/group pipeline is deterministic — identical
inputs yield identical outputs (purity holds by construction in this
embedding: every operation is a function of the record collection and the
criteria alone, with no hidden state). -/
theorem recompute_deterministic (R1 R2 : List AzureUpdate)
    (s1 s2 : FilterState) (hR : R1 = R2) (hs : s1 = s2) :
    recompute R1 s1 = recompute R2 s2 := by
  subst hR
  subst hs
  rfl

/-- Witness for C8 at a concrete input. -/
theorem recompute_deterministic_witness :
    recompute [uA] defaultCriteria = recompute [uA] defaultCriteria :=
  recompute_deterministic [uA] [uA] defaultCriteria defaultCriteria rfl rfl

/-- C7: search is case-insensitive: `"AZURE"` and `"azure"` produce equal
filter results, and in general search texts differing only in letter case
(equal after lowercasing) produce equal filter results. -/
theorem filter_case_insensitive :
    (∀ (R : List AzureUpdate) (d : Option Str) (wk : Option Int),
        filteredUpdates R (str "AZURE") d wk =
          filteredUpdates R (str "azure") d wk) ∧
    ∀ (R : List AzureUpdate) (d : Option Str) (wk : Option Int) (q1 q2 : Str),
      jsToLower q1 = jsToLower q2 →
      filteredUpdates R q1 d wk = filteredUpdates R q2 d wk := by
  have main : ∀ (R : List AzureUpdate) (d : Option Str) (wk : Option Int)
      (q1 q2 : Str), jsToLower q1 = jsToLower q2 →
      filteredUpdates R q1 d wk = filteredUpdates R q2 d wk := by
    intro R d wk q1 q2 h
    unfold filteredUpdates
    apply List.filter_congr
    intro u hu
    have hs : matchesSearch q1 u = matchesSearch q2 u := by
      unfold matchesSearch
      rw [h, decide_eq_decide.2 (jsTrim_nil_congr q1 q2 h)]
    rw [hs]
  exact ⟨fun R d wk => main R d wk _ _ (by decide), main⟩

/-- Witness for C7: a mixed-case variant against its lowercase form. -/
theorem filter_case_insensitive_witness :
    filteredUpdates [uA] (str "AzUrE") none none =
      filteredUpdates [uA] (str "azure") none none :=
  filter_case_insensitive.2 [uA] none none (str "AzUrE") (str "azure")
    (by decide)

/-- C4: `allDomains` (deriveCategories) is the union of every record's
category tags, deduplicated and sorted lexicographically ascending; it is
a function of the collection (hence deterministic), and the empty
collection yields the empty set. -/
theorem allDomains_spec :
    (∀ R : List AzureUpdate,
        (allDomains R).Nodup ∧
          (allDomains R).Pairwise domLe ∧
          ∀ d, d ∈ allDomains R ↔ ∃ u ∈ R, d ∈ u.domain) ∧
    allDomains [] = [] := by
  constructor
  · intro R
    have hperm : (allDomains R).Perm
        (firstSeenDedup (R.flatMap (·.domain))) :=
      List.perm_insertionSort domLe _
    refine ⟨hperm.nodup_iff.2 (firstSeenDedup_nodup _), ?_, ?_⟩
    · haveI : IsTotal Str domLe := ⟨lexLeB_total⟩
      haveI : IsTrans Str domLe := ⟨lexLeB_trans⟩
      exact List.sorted_insertionSort domLe _
    · intro d
      rw [hperm.mem_iff, mem_firstSeenDedup, List.mem_flatMap]
  · rfl

/-- Witness for C4 at a concrete collection. -/
theorem allDomains_spec_witness :
    (allDomains [uA, uB]).Nodup ∧
      (str "Compute" ∈ allDomains [uA, uB] ↔
        ∃ u ∈ [uA, uB], str "Compute" ∈ u.domain) :=
  ⟨(allDomains_spec.1 [uA, uB]).1,
    (allDomains_spec.1 [uA, uB]).2.2 (str "Compute")⟩

/-- C3: `groupedByMonth` partitions the records by calendar month+year of
their date — each group equals the input filtered to that month key, so
input order is preserved within each group — with keys in first-seen
order (the first-seen dedup of the record-wise month keys), no key
repeated, and the group sizes summing to the input length (no record lost
or duplicated). -/
theorem groupByMonth_spec (R : List AzureUpdate) :
    (∀ k g, (k, g) ∈ groupByMonth R →
        g = R.filter (fun u => decide (monthKey u = k))) ∧
      (groupByMonth R).map Prod.fst = firstSeenDedup (R.map monthKey) ∧
      ((groupByMonth R).map Prod.fst).Nodup ∧
      ((groupByMonth R).map (fun p => p.2.length)).sum = R.length :=
  ⟨fun k g hmem => groupByMonth_group_eq R k g hmem,
    groupByMonth_keys R, groupByMonth_keys_nodup R, groupByMonth_sizes R⟩

/-- Witness for C3: both sample records land in the March 2024 group. -/
theorem groupByMonth_spec_witness :
    [uA, uB] = List.filter (fun u => decide (monthKey u = (2024, 3)))
        [uA, uB] ∧
      (groupByMonth [uA, uB]).map Prod.fst =
        firstSeenDedup ([uA, uB].map monthKey) ∧
      ((groupByMonth [uA, uB]).map (fun p => p.2.length)).sum = 2 := by
  have h := groupByMonth_spec [uA, uB]
  exact ⟨h.1 (2024, 3) [uA, uB] (by decide), h.2.1, h.2.2.2⟩

/-- C2: the derived week buckets are Sunday-aligned 7-day [Sun..Sat]
windows (day-aligned start with day-of-week 0, end exactly the last
millisecond of the 7th day), deduplicated by window start, pairwise
non-overlapping, sorted descending by start instant, and every record's
date falls in exactly one returned bucket. -/
theorem availableWeeks_spec (R : List AzureUpdate) :
    (∀ w ∈ availableWeeks R,
        w.start % msPerDay = 0 ∧ dayOfWeek w.start = 0 ∧
          w.endTime = w.start + 7 * msPerDay - 1) ∧
      (availableWeeks R).Pairwise (fun a b => a.start ≠ b.start) ∧
      (availableWeeks R).Pairwise
        (fun a b => b.endTime < a.start ∨ a.endTime < b.start) ∧
      (availableWeeks R).Pairwise (fun a b => b.start < a.start) ∧
      ∀ u ∈ R, ∃ w ∈ availableWeeks R,
        (w.start ≤ u.date ∧ u.date ≤ w.endTime) ∧
          ∀ w' ∈ availableWeeks R,
            w'.start ≤ u.date → u.date ≤ w'.endTime → w' = w := by
  have halign : ∀ w ∈ availableWeeks R,
      w.start % (7 * msPerDay) = 3 * msPerDay ∧
        w.endTime = w.start + 7 * msPerDay - 1 := by
    intro w hw
    obtain ⟨u, _, rfl⟩ := mem_availableWeeks_shape R w hw
    exact ⟨getWeekRange_start_mod _, getWeekRange_endTime _⟩
  have hdisj : (availableWeeks R).Pairwise
      (fun a b => b.endTime < a.start ∨ a.endTime < b.start) := by
    refine List.Pairwise.imp_of_mem ?_
      ((availableWeeks_sorted R).and (availableWeeks_pairwise_ne R))
    intro a b ha hb hab
    obtain ⟨hge, hne⟩ := hab
    obtain ⟨ha1, ha2⟩ := halign a ha
    obtain ⟨hb1, hb2⟩ := halign b hb
    have hge' : b.start ≤ a.start := hge
    left
    simp only [msPerDay] at ha1 ha2 hb1 hb2
    omega
  refine ⟨?_, availableWeeks_pairwise_ne R, hdisj, ?_, ?_⟩
  · intro w hw
    obtain ⟨u, _, rfl⟩ := mem_availableWeeks_shape R w hw
    exact ⟨getWeekRange_dayAligned _, getWeekRange_dow _,
      getWeekRange_endTime _⟩
  · exact ((availableWeeks_sorted R).and
      (availableWeeks_pairwise_ne R)).imp
        (fun h => lt_of_le_of_ne h.1 h.2.symm)
  · intro u hu
    obtain ⟨w, hw, hkey⟩ := availableWeeks_cover R u hu
    obtain ⟨u', hu', hw_eq⟩ := mem_availableWeeks_shape R w hw
    have hww : w = getWeekRange u.date := by
      rw [hw_eq]
      apply getWeekRange_eq_of_start_eq
      rw [← hw_eq]
      exact hkey
    have hrange : w.start ≤ u.date ∧ u.date ≤ w.endTime := by
      rw [hww]
      exact self_mem_getWeekRange u.date
    refine ⟨w, hw, hrange, ?_⟩
    intro w' hw' h1 h2
    by_contra hne
    have hsym : Symmetric
        (fun a b : WeekRange => b.endTime < a.start ∨ a.endTime < b.start) :=
      fun a b h => h.symm
    rcases hdisj.forall hsym hw' hw hne with h | h
    · omega
    · omega

/-- Witness for C2: the bucket of `[uA]` is Sunday 2024-03-03 00:00 to
Saturday 2024-03-09 23:59:59.999, and `uA`'s date lies in exactly one
bucket. -/
theorem availableWeeks_spec_witness :
    ((⟨1709424000000, 1710028799999⟩ : WeekRange).start % msPerDay = 0 ∧
        dayOfWeek (⟨1709424000000, 1710028799999⟩ : WeekRange).start = 0 ∧
        (⟨1709424000000, 1710028799999⟩ : WeekRange).endTime =
          (⟨1709424000000, 1710028799999⟩ : WeekRange).start +
            7 * msPerDay - 1) ∧
      ∃ w ∈ availableWeeks [uA],
        (w.start ≤ uA.date ∧ uA.date ≤ w.endTime) ∧
          ∀ w' ∈ availableWeeks [uA],
            w'.start ≤ uA.date → uA.date ≤ w'.endTime → w' = w :=
  ⟨(availableWeeks_spec [uA]).1 ⟨1709424000000, 1710028799999⟩ (by decide),
    (availableWeeks_spec [uA]).2.2.2.2 uA (by decide)⟩

/-- C1, counterexample to the claim as stated: with the whitespace-only
search text `" "` the code keeps every record (it tests the TRIMMED text
for emptiness), while §4.2's literal predicate — search text empty or a
case-insensitive substring of title or description — rejects `uA`, whose
title and description contain no space.  So membership in the filter
output is not equivalent to the literal spec predicates. -/
theorem filter_conjunctive_spec_counterexample :
    uA ∈ filteredUpdates [uA] (str " ") none none ∧
      ¬ specSearchPred (str " ") uA := by
  constructor
  · decide
  · decide

/-- C1 as amended: for criteria whose week key is `'all'` or references a
derived bucket (the documented §3 invariant), a record appears in the
filter output iff it is in the collection and satisfies all three §4.2
predicates, with predicate 1 amended to "searchText TRIMS to empty, or is
a case-insensitive substring of title or description"; and the output
preserves the input order (it is a sublist of the input). -/
theorem filter_conjunctive_amended (R : List AzureUpdate) (q : Str)
    (d : Option Str) (wk : Option Int)
    (hval : wk = none ∨ ∃ b ∈ availableWeeks R, wk = some b.start) :
    (∀ r, r ∈ filteredUpdates R q d wk ↔
        r ∈ R ∧ searchPred q r ∧ domainPred d r ∧
          weekPred (availableWeeks R) wk r.date) ∧
      (filteredUpdates R q d wk).Sublist R := by
  constructor
  · intro r
    rw [filteredUpdates, List.mem_filter]
    constructor
    · rintro ⟨hr, hp⟩
      simp only [Bool.and_eq_true] at hp
      obtain ⟨⟨h1, h2⟩, h3⟩ := hp
      exact ⟨hr, (matchesSearch_true_iff q r).1 h1,
        (matchesDomain_true_iff d r).1 h2,
        (matchesWeek_true_iff R wk r.date hval).1 h3⟩
    · rintro ⟨hr, h1, h2, h3⟩
      refine ⟨hr, ?_⟩
      simp only [Bool.and_eq_true]
      exact ⟨⟨(matchesSearch_true_iff q r).2 h1,
        (matchesDomain_true_iff d r).2 h2⟩,
        (matchesWeek_true_iff R wk r.date hval).2 h3⟩
  · exact List.filter_sublist R

/-- Witness for C1 (amended): searching `"databases"` in the week of
2024-03-10 (a derived bucket key) selects `uB`. -/
theorem filter_conjunctive_amended_witness :
    (uB ∈ filteredUpdates [uA, uB] (str "databases") none
        (some 1710028800000) ↔
      uB ∈ [uA, uB] ∧ searchPred (str "databases") uB ∧
        domainPred none uB ∧
        weekPred (availableWeeks [uA, uB]) (some 1710028800000) uB.date) ∧
      (filteredUpdates [uA, uB] (str "databases") none
        (some 1710028800000)).Sublist [uA, uB] := by
  have h := filter_conjunctive_amended [uA, uB] (str "databases") none
    (some 1710028800000) (Or.inr (by decide))
  exact ⟨h.1 uB, h.2⟩

end AzureHub
